import Mathlib

/-!
# Verification of the pronunciation-scoring engine

A shallow embedding of the scoring core of `src/components/PronunciationAnalyzer.tsx`
(`getPhoneticBreakdown`, `analyzePronounciation`, `calculateSimilarity`, and the
interval-timer lifecycle of the live-analysis session), together with proofs of the
design-document claims about it.

Modelling conventions:
* JavaScript strings are `List Char`; JavaScript numbers are exact rationals `ℚ`
  (the values involved are small enough that IEEE doubles compute them exactly in
  all cases the claims exercise), with `Math.round` as `jsRound`.
* `String.prototype.split(/\s+/)` is `jsSplitWs` (including its JavaScript quirks:
  the empty string splits to `[""]`, a leading/trailing whitespace run produces an
  empty token).
* Property lookup in the phonetic-map object literal first consults the own
  keys (finite-map lookup, `List.lookup`) and then the `Object.prototype`
  chain: a name such as `constructor` that is no own key still yields the
  inherited, truthy member (`PhoneticValue.protoMember`), and only a name found
  nowhere reads as `undefined`; `x || y` is "`x` if truthy else `y`", where
  `undefined` and the empty string are falsy.
* The Levenshtein matrix loop fills the table row by row, each row depending only
  on the previous one; `levFinalRow` folds exactly that recurrence and returns the
  last row, whose entry `str1.length` is the cell `matrix[str2.length][str1.length]`
  the code reads.
-/

namespace VerbalPractice

/-- Character class of the regex `\s` (ASCII whitespace). -/
def isSpace (c : Char) : Bool :=
  c == ' ' || c == '\t' || c == '\n' || c == '\r' || c == '\x0b' || c == '\x0c'

/-- Character class of the regex `\w` (word characters `[A-Za-z0-9_]`). -/
def isWordChar (c : Char) : Bool :=
  c.isAlphanum || c == '_'

/-- Models `String.prototype.toLowerCase` applied characterwise. -/
def lowerStr (l : List Char) : List Char :=
  l.map Char.toLower

/-- Models `String.prototype.trim`: strip leading and trailing whitespace. -/
def trim (l : List Char) : List Char :=
  ((l.dropWhile isSpace).reverse.dropWhile isSpace).reverse

mutual

/-- Models `str.split(/\s+/)`, scanning the string left to right. `cur` holds the
characters of the token currently being read, in reverse. On whitespace the
current token is emitted and a maximal whitespace run is consumed (`jsSplitSep`). -/
def jsSplitAux : List Char → List Char → List (List Char)
  | [], cur => [cur.reverse]
  | c :: cs, cur =>
    if isSpace c then cur.reverse :: jsSplitSep cs else jsSplitAux cs (c :: cur)

/-- State of `jsSplitAux` inside a whitespace separator run. A run that reaches the
end of the string yields a final empty token, matching the JavaScript behaviour
of `split(/\s+/)` on trailing whitespace. -/
def jsSplitSep : List Char → List (List Char)
  | [] => [[]]
  | c :: cs =>
    if isSpace c then jsSplitSep cs else jsSplitAux cs [c]

end

/-- Models `str.split(/\s+/)`. -/
def jsSplitWs (l : List Char) : List (List Char) :=
  jsSplitAux l []

/-- Tokenisation used by `analyzePronounciation`:
`phrase.toLowerCase().trim().split(/\s+/)`. -/
def tokenize (s : List Char) : List (List Char) :=
  jsSplitWs (trim (lowerStr s))

/-- The static phonetic mapping of `getPhoneticBreakdown` (the object literal
`phoneticMap`), as a finite association list. -/
def phoneticMap : List (List Char × List Char) :=
  [("hello".toList, "hə-ˈloʊ".toList),
   ("world".toList, "wɜːrld".toList),
   ("how".toList, "haʊ".toList),
   ("are".toList, "ɑːr".toList),
   ("you".toList, "juː".toList),
   ("today".toList, "tə-ˈdeɪ".toList),
   ("pronunciation".toList, "prə-ˌnʌn-si-ˈeɪ-ʃən".toList),
   ("practice".toList, "ˈpræk-tɪs".toList),
   ("language".toList, "ˈlæŋ-ɡwɪdʒ".toList),
   ("speech".toList, "spiːtʃ".toList),
   ("voice".toList, "vɔɪs".toList),
   ("sound".toList, "saʊnd".toList),
   ("learn".toList, "lɜːrn".toList),
   ("improve".toList, "ɪm-ˈpruːv".toList),
   ("communication".toList, "kə-ˌmjuː-nɪ-ˈkeɪ-ʃən".toList),
   ("articulation".toList, "ɑːr-ˌtɪk-jə-ˈleɪ-ʃən".toList),
   ("fluency".toList, "ˈfluː-ən-si".toList),
   ("accent".toList, "ˈæk-sent".toList),
   ("dialect".toList, "ˈdaɪ-ə-lekt".toList)]

/-- Models `word.replace(/[^\w]/g, '')`: strip all non-word characters. -/
def cleanWordOf (word : List Char) : List Char :=
  word.filter isWordChar

/-- Property names of `Object.prototype`. The `phoneticMap` object literal
inherits these, so reading one of them on it yields the inherited member — a
function, or the prototype object itself for `__proto__` — rather than
`undefined`. Property names are case-sensitive, and the analyser lower-cases
the phrase before cleaning each token, so only the all-lower-case names
`constructor` and `__proto__` can actually be reached by a cleaned token. -/
def objectProtoMembers : List (List Char) :=
  ["constructor".toList, "hasOwnProperty".toList, "isPrototypeOf".toList,
   "propertyIsEnumerable".toList, "toLocaleString".toList, "toString".toList,
   "valueOf".toList, "__defineGetter__".toList, "__defineSetter__".toList,
   "__lookupGetter__".toList, "__lookupSetter__".toList, "__proto__".toList]

/-- A JavaScript value produced by the phonetic lookup: either a string, or a
member inherited from `Object.prototype` (a function, or the prototype object
itself; always truthy). -/
inductive PhoneticValue where
  | str (s : List Char)
  | protoMember (name : List Char)
deriving DecidableEq

/-- Models the JavaScript expression `phoneticMap[cleanWord] || cleanWord`: an
own key yields its (non-empty, hence truthy) string value; a missing own key
falls through to the prototype chain, where the `Object.prototype` members are
found and are truthy; only a name found nowhere reads as `undefined`, which is
falsy, so `||` returns `cleanWord`. -/
def phoneticLookup (cleanWord : List Char) : PhoneticValue :=
  match phoneticMap.lookup cleanWord with
  | some p => .str p
  | none =>
    if cleanWord ∈ objectProtoMembers then .protoMember cleanWord
    else .str cleanWord

/-- Embedding of `getPhoneticBreakdown`: lower-case the text, split on whitespace
runs, clean each token, and look it up in `phoneticMap`
(`phoneticMap[cleanWord] || cleanWord`, including prototype-chain hits). -/
def getPhoneticBreakdown (text : List Char) : List PhoneticValue :=
  (jsSplitWs (lowerStr text)).map fun word =>
    phoneticLookup (cleanWordOf word)

/-- Inner loop (`for (i = 1; i <= str1.length; i++)`) of the Levenshtein table of
`calculateSimilarity`, computing row `j` of the matrix left to right. At char
`a = str1[i-1]`: `left` is `matrix[j][i-1]`, `diag` is `matrix[j-1][i-1]`, and
`prevRest` holds `matrix[j-1][i], matrix[j-1][i+1], ...`; the new cell is
`min(matrix[j][i-1] + 1, matrix[j-1][i] + 1, matrix[j-1][i-1] + indicator)`. -/
def buildRowAux (b : Char) : List Char → List ℕ → ℕ → ℕ → List ℕ
  | [], _, _, _ => []
  | a :: as, prevRest, diag, left =>
    let up := prevRest.headD 0
    let here := min (left + 1) (min (up + 1) (diag + if a = b then 0 else 1))
    here :: buildRowAux b as prevRest.tail up here

/-- One iteration of the outer loop (`for (j = 1; j <= str2.length; j++)`) of the
Levenshtein table: from row `j - 1` (`prev`) and `b = str2[j-1]`, compute row `j`.
Its first cell is the base case `matrix[j][0] = j = prev[0] + 1`. -/
def buildRow (str1 : List Char) (b : Char) (prev : List ℕ) : List ℕ :=
  match prev with
  | [] => []
  | p0 :: rest => (p0 + 1) :: buildRowAux b str1 rest p0 (p0 + 1)

/-- The last row (`j = str2.length`) of the Levenshtein table built by
`calculateSimilarity`, starting from the base row `matrix[0][i] = i`. -/
def levFinalRow (str1 str2 : List Char) : List ℕ :=
  str2.foldl (fun prev b => buildRow str1 b prev) (List.range (str1.length + 1))

/-- Embedding of `calculateSimilarity`: normalised Levenshtein similarity
`maxLength === 0 ? 1 : (maxLength - matrix[str2.length][str1.length]) / maxLength`. -/
def calculateSimilarity (str1 str2 : List Char) : ℚ :=
  let maxLength := max str1.length str2.length
  if maxLength = 0 then 1
  else ((maxLength : ℚ) - (levFinalRow str1 str2).getD str1.length 0) / maxLength

/-- Models `Math.round` (round half towards positive infinity, as JavaScript does;
all values rounded by the analyser are non-negative). -/
def jsRound (q : ℚ) : ℤ :=
  ⌊q + 1 / 2⌋

/-- The feedback label bands of the per-word scoring branch of
`analyzePronounciation` (thresholds 90 / 75 / 60 / 40). -/
def feedbackBand (wordScore : ℤ) : String :=
  if 90 ≤ wordScore then "Excellent pronunciation"
  else if 75 ≤ wordScore then "Good pronunciation"
  else if 60 ≤ wordScore then "Needs improvement"
  else if 40 ≤ wordScore then "Significant difference"
  else "Very different from target"

/-- Body of the per-position word analysis inside the loop of
`analyzePronounciation`, returning the pair `(wordScore, feedback)`. An empty
string is falsy in JavaScript, so `!spokenWord && targetWord` is
"`spokenWord` empty and `targetWord` non-empty", and so on. -/
def analyzeWordScore (spokenWord targetWord : List Char) : ℤ × String :=
  if spokenWord = [] ∧ targetWord ≠ [] then (0, "Missing word")
  else if spokenWord ≠ [] ∧ targetWord = [] then (20, "Extra word")
  else if spokenWord = targetWord then (100, "Perfect match")
  else
    let similarity := calculateSimilarity spokenWord targetWord
    let wordScore := jsRound (similarity * 100)
    (wordScore, feedbackBand wordScore)

/-- Holistic feedback text of `analyzePronounciation`, selected from the overall
score bands 90 / 75 / 60 / 40. -/
def overallFeedbackOf (overallScore : ℤ) : String :=
  if 90 ≤ overallScore then "Outstanding pronunciation! You sound very natural."
  else if 75 ≤ overallScore then "Great job! Your pronunciation is quite good."
  else if 60 ≤ overallScore then "Good effort! There's room for improvement."
  else if 40 ≤ overallScore then "Keep practicing! Focus on clarity and accuracy."
  else "Don't give up! Pronunciation takes time to master."

/-- Improvement suggestions of `analyzePronounciation`, selected from the overall
score bands 90 / 75 / 60 / 40. -/
def suggestionsOf (overallScore : ℤ) : List String :=
  if 90 ≤ overallScore then ["Try more complex sentences to challenge yourself"]
  else if 75 ≤ overallScore then
    ["Focus on the words with lower scores", "Practice speaking at a steady pace"]
  else if 60 ≤ overallScore then
    ["Listen carefully to the target pronunciation",
     "Practice individual words that scored low",
     "Speak more slowly and clearly"]
  else if 40 ≤ overallScore then
    ["Break down words into syllables",
     "Practice in front of a mirror",
     "Record yourself multiple times"]
  else
    ["Start with shorter, simpler words",
     "Listen to native speakers",
     "Practice basic sounds first"]

/-- The `WordAnalysis` record of the source (per aligned word position). The
`expected` field holds the JavaScript value of the phonetic lookup, which is a
string except when the cleaned target token names an inherited
`Object.prototype` member. -/
structure WordAnalysis where
  word : List Char
  expected : PhoneticValue
  spoken : List Char
  score : ℤ
  feedback : String
deriving DecidableEq

/-- The `PronunciationResult` record of the source. The `timestamp` field
(`Date.now()`) is an external effect and is not part of the embedding. -/
structure PronunciationResult where
  overallScore : ℤ
  wordBreakdown : List WordAnalysis
  feedback : String
  suggestions : List String
deriving DecidableEq

/-- Embedding of `analyzePronounciation`: tokenise both phrases, analyse position
`i = 0 .. max(len(S), len(T)) - 1` (missing indices default to the empty string,
modelling `spokenWords[i] || ''`), and aggregate the overall score as
`Math.round(totalScore / Math.max(spokenWords.length, targetWords.length, 1))`. -/
def analyzePronounciation (spoken target : List Char) : PronunciationResult :=
  let spokenWords := tokenize spoken
  let targetWords := tokenize target
  let phoneticTarget := getPhoneticBreakdown target
  let wordBreakdown :=
    (List.range (max spokenWords.length targetWords.length)).map fun i =>
      let spokenWord := spokenWords.getD i []
      let targetWord := targetWords.getD i []
      let phoneticWord := phoneticTarget.getD i (.str [])
      let sf := analyzeWordScore spokenWord targetWord
      { word := targetWord, expected := phoneticWord, spoken := spokenWord,
        score := sf.1, feedback := sf.2 : WordAnalysis }
  let totalScore := (wordBreakdown.map WordAnalysis.score).sum
  let overallScore :=
    jsRound ((totalScore : ℚ) /
      (max spokenWords.length (max targetWords.length 1) : ℚ))
  { overallScore := overallScore
    wordBreakdown := wordBreakdown
    feedback := overallFeedbackOf overallScore
    suggestions := suggestionsOf overallScore }

/-- The textbook Levenshtein distance with unit-cost substitution, insertion and
deletion (Mathlib's `levenshtein` with the all-ones cost structure). This is the
specification-side definition the similarity scorer is compared against. -/
def editDistance (a b : List Char) : ℕ :=
  levenshtein Levenshtein.defaultCost a b

/-- Row `j` of the Levenshtein table, specified by edit distances of prefixes:
entry `i` is the distance between the first `i` characters of `str1` and the
first `j` characters of `str2`. Used to verify `levFinalRow`. -/
def rowOf (str1 str2 : List Char) (j : ℕ) : List ℕ :=
  (List.range (str1.length + 1)).map fun i =>
    editDistance (str1.take i) (str2.take j)

/-- Bounds-checked cell of the Levenshtein table: every read the recurrence of
`calculateSimilarity` performs — `matrix[j][i-1]`, `matrix[j-1][i]`,
`matrix[j-1][i-1]`, `str1[i-1]`, `str2[j-1]` — is a checked access that fails
(`none`) when out of bounds. Used to verify that the matrix indexing of the
source stays in bounds. -/
def levCellO (str1 str2 : List Char) (j i : ℕ) : Option ℕ :=
  match j, i with
  | 0, i => some i
  | j + 1, 0 => some (j + 1)
  | j + 1, i + 1 =>
    match str1[i]?, str2[j]?, levCellO str1 str2 (j + 1) i,
        levCellO str1 str2 j (i + 1), levCellO str1 str2 j i with
    | some a, some b, some left, some up, some diag =>
      some (min (left + 1) (min (up + 1) (diag + if a = b then 0 else 1)))
    | _, _, _, _, _ => none
termination_by j + i

/-- Bounds-checked version of `calculateSimilarity`: the final matrix read
`matrix[str2.length][str1.length]` and every read inside the recurrence are
checked accesses. -/
def calculateSimilarityO (str1 str2 : List Char) : Option ℚ :=
  let maxLength := max str1.length str2.length
  if maxLength = 0 then some 1
  else (levCellO str1 str2 str2.length str1.length).map fun d =>
    ((maxLength : ℚ) - d) / maxLength

/-- Bounds-checked version of `analyzeWordScore`, propagating a failure of the
similarity computation. -/
def analyzeWordScoreO (spokenWord targetWord : List Char) : Option (ℤ × String) :=
  if spokenWord = [] ∧ targetWord ≠ [] then some (0, "Missing word")
  else if spokenWord ≠ [] ∧ targetWord = [] then some (20, "Extra word")
  else if spokenWord = targetWord then some (100, "Perfect match")
  else (calculateSimilarityO spokenWord targetWord).map fun similarity =>
    let wordScore := jsRound (similarity * 100)
    (wordScore, feedbackBand wordScore)

/-- Bounds-checked version of `analyzePronounciation`. Token and phonetic reads
`spokenWords[i] || ''` are explicitly defaulted in the source and stay `getD`;
all other indexing is checked and a failure propagates to the result. -/
def analyzePronounciationO (spoken target : List Char) : Option PronunciationResult :=
  let spokenWords := tokenize spoken
  let targetWords := tokenize target
  let phoneticTarget := getPhoneticBreakdown target
  ((List.range (max spokenWords.length targetWords.length)).mapM fun i =>
    (analyzeWordScoreO (spokenWords.getD i []) (targetWords.getD i [])).map fun sf =>
      { word := targetWords.getD i [], expected := phoneticTarget.getD i (.str []),
        spoken := spokenWords.getD i [], score := sf.1, feedback := sf.2
        : WordAnalysis }).map fun wordBreakdown =>
    let totalScore := (wordBreakdown.map WordAnalysis.score).sum
    let overallScore :=
      jsRound ((totalScore : ℚ) /
        (max spokenWords.length (max targetWords.length 1) : ℚ))
    { overallScore := overallScore
      wordBreakdown := wordBreakdown
      feedback := overallFeedbackOf overallScore
      suggestions := suggestionsOf overallScore }

/-- State of the live-analysis session timer machinery of the component:
`listening` is the `isListening` flag, `intervalRef` is `analysisIntervalRef.current`,
`activeTimers` is the set of interval timers created by `setInterval` and not yet
cleared, and `nextId` is the next timer handle the browser will allocate. -/
structure TimerState where
  listening : Bool
  activeTimers : List ℕ
  intervalRef : Option ℕ
  nextId : ℕ
deriving DecidableEq

/-- Models `if (analysisIntervalRef.current) clearInterval(analysisIntervalRef.current)`:
clearing an already-cleared handle is a no-op. -/
def clearAnalysisInterval (s : TimerState) : TimerState :=
  match s.intervalRef with
  | some h => { s with activeTimers := s.activeTimers.erase h }
  | none => s

/-- The `recognition.onstart` handler: set `isListening`, create the real-time
analysis interval with `setInterval` and store its handle in the ref. -/
def onStartStep (s : TimerState) : TimerState :=
  { s with listening := true,
           activeTimers := s.nextId :: s.activeTimers,
           intervalRef := some s.nextId,
           nextId := s.nextId + 1 }

/-- The `recognition.onend` handler: clear `isListening`, then clear the interval. -/
def onEndStep (s : TimerState) : TimerState :=
  clearAnalysisInterval { s with listening := false }

/-- The `recognition.onerror` handler: clear `isListening`, then clear the interval. -/
def onErrorStep (s : TimerState) : TimerState :=
  clearAnalysisInterval { s with listening := false }

/-- The `reset` handler: clear the interval (the `recognition.abort()` call it also
makes surfaces later as an `onend` event). -/
def resetStep (s : TimerState) : TimerState :=
  clearAnalysisInterval s

/-- Initial component state: not listening, no timer ever created. -/
def initState : TimerState :=
  { listening := false, activeTimers := [], intervalRef := none, nextId := 0 }

/-- Events of the session lifecycle. `start` (the `onstart` callback) can only
fire when the recognizer is not already listening: `recognition.start()` throws
on a started recognizer instead of restarting it, so `onstart` fires exactly once
per successfully started session. The end, error and reset events can occur at
any time. -/
inductive TimerStep : TimerState → TimerState → Prop where
  | start (s : TimerState) (h : s.listening = false) : TimerStep s (onStartStep s)
  | recEnd (s : TimerState) : TimerStep s (onEndStep s)
  | recError (s : TimerState) : TimerStep s (onErrorStep s)
  | reset (s : TimerState) : TimerStep s (resetStep s)

/-- States of the timer machinery reachable from the initial component state. -/
inductive TimerReachable : TimerState → Prop where
  | init : TimerReachable initState
  | step {s s' : TimerState} : TimerReachable s → TimerStep s s' → TimerReachable s'

/-- Invariant of the timer machinery: either no interval timer is active, or
exactly one is, it is the one held by `analysisIntervalRef`, and the session that
created it is still listening. -/
def timerInv (s : TimerState) : Prop :=
  s.activeTimers = [] ∨
    ∃ i, s.activeTimers = [i] ∧ s.intervalRef = some i ∧ s.listening = true

/-! ## Properties of the reference edit distance -/

theorem editDistance_nil_left (ys : List Char) : editDistance [] ys = ys.length := by
  induction ys with
  | nil => simp [editDistance, levenshtein_nil_nil]
  | cons y ys ih =>
    have h : editDistance [] (y :: ys) = 1 + editDistance [] ys := by
      unfold editDistance
      rw [levenshtein_nil_cons]
      simp only [Levenshtein.defaultCost_insert]
    rw [h, ih]
    simp only [List.length_cons]
    omega

theorem editDistance_nil_right (xs : List Char) : editDistance xs [] = xs.length := by
  induction xs with
  | nil => simp [editDistance, levenshtein_nil_nil]
  | cons x xs ih =>
    have h : editDistance (x :: xs) [] = 1 + editDistance xs [] := by
      unfold editDistance
      rw [levenshtein_cons_nil]
      simp only [Levenshtein.defaultCost_delete]
    rw [h, ih]
    simp only [List.length_cons]
    omega

theorem editDistance_cons_cons (x y : Char) (xs ys : List Char) :
    editDistance (x :: xs) (y :: ys) =
      min (editDistance xs (y :: ys) + 1)
        (min (editDistance (x :: xs) ys + 1)
          (editDistance xs ys + if x = y then 0 else 1)) := by
  unfold editDistance
  rw [levenshtein_cons_cons]
  simp only [Levenshtein.defaultCost_delete, Levenshtein.defaultCost_insert,
    Levenshtein.defaultCost_substitute]
  omega

theorem editDistance_self (xs : List Char) : editDistance xs xs = 0 := by
  induction xs with
  | nil => simp [editDistance, levenshtein_nil_nil]
  | cons x xs ih => rw [editDistance_cons_cons]; simp [ih]

theorem editDistance_comm_aux :
    ∀ (n : ℕ) (xs ys : List Char), xs.length + ys.length ≤ n →
      editDistance xs ys = editDistance ys xs := by
  intro n
  induction n with
  | zero =>
    intro xs ys h
    have hx : xs = [] := List.eq_nil_of_length_eq_zero (by omega)
    have hy : ys = [] := List.eq_nil_of_length_eq_zero (by omega)
    subst hx; subst hy; rfl
  | succ n ih =>
    intro xs ys h
    rcases xs with _ | ⟨x, xs⟩
    · rw [editDistance_nil_left, editDistance_nil_right]
    rcases ys with _ | ⟨y, ys⟩
    · rw [editDistance_nil_left, editDistance_nil_right]
    simp only [List.length_cons] at h
    rw [editDistance_cons_cons, editDistance_cons_cons,
      ih xs (y :: ys) (by simp; omega), ih (x :: xs) ys (by simp; omega),
      ih xs ys (by omega)]
    by_cases hxy : x = y
    · subst hxy; omega
    · rw [if_neg hxy, if_neg (fun h => hxy h.symm)]; omega

theorem editDistance_comm (xs ys : List Char) : editDistance xs ys = editDistance ys xs :=
  editDistance_comm_aux (xs.length + ys.length) xs ys le_rfl

theorem editDistance_le_max (xs : List Char) :
    ∀ ys : List Char, editDistance xs ys ≤ max xs.length ys.length := by
  induction xs with
  | nil => intro ys; rw [editDistance_nil_left]; omega
  | cons x xs ih =>
    intro ys
    rcases ys with _ | ⟨y, ys⟩
    · rw [editDistance_nil_right]; omega
    · rw [editDistance_cons_cons]
      have h3 := ih ys
      have hc : (if x = y then 0 else 1) ≤ 1 := by split <;> omega
      simp only [List.length_cons]
      omega

theorem editDistance_eq_zero_iff (xs : List Char) :
    ∀ ys : List Char, editDistance xs ys = 0 ↔ xs = ys := by
  induction xs with
  | nil =>
    intro ys
    rcases ys with _ | ⟨y, ys⟩
    · simpa using editDistance_self []
    · rw [editDistance_nil_left]; simp
  | cons x xs ih =>
    intro ys
    rcases ys with _ | ⟨y, ys⟩
    · rw [editDistance_nil_right]; simp
    · rw [editDistance_cons_cons]
      constructor
      · intro h0
        have hc : (if x = y then 0 else 1) = 0 ∧ editDistance xs ys = 0 := by omega
        have hx : x = y := by
          by_contra hne
          simp [hne] at hc
        have hxs : xs = ys := (ih ys).mp hc.2
        rw [hx, hxs]
      · intro he
        injection he with h1 h2
        subst h1; subst h2
        simp [editDistance_self]

set_option maxHeartbeats 800000 in
theorem editDistance_snoc_aux (x y : Char) :
    ∀ (n : ℕ) (xs ys : List Char), xs.length + ys.length ≤ n →
      editDistance (xs ++ [x]) (ys ++ [y]) =
        min (editDistance xs (ys ++ [y]) + 1)
          (min (editDistance (xs ++ [x]) ys + 1)
            (editDistance xs ys + if x = y then 0 else 1)) := by
  intro n
  induction n with
  | zero =>
    intro xs ys h
    have hx : xs = [] := List.eq_nil_of_length_eq_zero (by omega)
    have hy : ys = [] := List.eq_nil_of_length_eq_zero (by omega)
    subst hx; subst hy
    simp only [List.nil_append]
    rw [editDistance_cons_cons]
  | succ n ih =>
    intro xs ys h
    rcases xs with _ | ⟨a, as⟩ <;> rcases ys with _ | ⟨b, bs⟩
    · simp only [List.nil_append]
      rw [editDistance_cons_cons]
    · -- xs = [], ys = b :: bs
      have ih1 := ih [] bs (by simp at h ⊢; omega)
      simp only [List.nil_append] at ih1 ⊢
      simp only [List.cons_append]
      simp only [editDistance_cons_cons]
      rw [ih1]
      simp only [editDistance_nil_left, List.length_cons, List.length_append,
        List.length_nil]
      apply le_antisymm <;> simp only [le_min_iff, min_le_iff] <;> omega
    · -- xs = a :: as, ys = []
      have ih1 := ih as [] (by simp at h ⊢; omega)
      simp only [List.nil_append] at ih1 ⊢
      simp only [List.cons_append]
      simp only [editDistance_cons_cons]
      rw [ih1]
      simp only [editDistance_nil_right, List.length_cons, List.length_append,
        List.length_nil]
      apply le_antisymm <;> simp only [le_min_iff, min_le_iff] <;> omega
    · -- xs = a :: as, ys = b :: bs
      simp only [List.length_cons] at h
      have ih1 := ih as (b :: bs) (by simp; omega)
      have ih2 := ih (a :: as) bs (by simp; omega)
      have ih3 := ih as bs (by omega)
      simp only [List.cons_append] at ih1 ih2 ih3 ⊢
      simp only [editDistance_cons_cons]
      rw [ih1, ih2, ih3]
      apply le_antisymm <;> simp only [le_min_iff, min_le_iff] <;> omega

theorem editDistance_snoc (x y : Char) (xs ys : List Char) :
    editDistance (xs ++ [x]) (ys ++ [y]) =
      min (editDistance xs (ys ++ [y]) + 1)
        (min (editDistance (xs ++ [x]) ys + 1)
          (editDistance xs ys + if x = y then 0 else 1)) :=
  editDistance_snoc_aux x y (xs.length + ys.length) xs ys le_rfl

/-! ## The similarity scorer computes normalised edit distance -/

theorem take_succ_getElem (l : List Char) (i : ℕ) (h : i < l.length) :
    l.take (i + 1) = l.take i ++ [l[i]] := by
  rw [List.take_succ, List.getElem?_eq_getElem h]
  rfl

theorem cell_zero_left (s t : List Char) (i : ℕ) (hi : i ≤ s.length) :
    editDistance (s.take i) (t.take 0) = i := by
  rw [List.take_zero, editDistance_nil_right, List.length_take]
  omega

theorem cell_zero_right (s t : List Char) (j : ℕ) (hj : j ≤ t.length) :
    editDistance (s.take 0) (t.take j) = j := by
  rw [List.take_zero, editDistance_nil_left, List.length_take]
  omega

theorem cell_succ_succ (s t : List Char) (i j : ℕ) (hi : i < s.length) (hj : j < t.length) :
    editDistance (s.take (i + 1)) (t.take (j + 1)) =
      min (editDistance (s.take i) (t.take (j + 1)) + 1)
        (min (editDistance (s.take (i + 1)) (t.take j) + 1)
          (editDistance (s.take i) (t.take j) + if s[i] = t[j] then 0 else 1)) := by
  rw [take_succ_getElem s i hi, take_succ_getElem t j hj]
  exact editDistance_snoc s[i] t[j] (s.take i) (t.take j)

theorem rowOf_length (s t : List Char) (j : ℕ) : (rowOf s t j).length = s.length + 1 := by
  simp [rowOf]

theorem rowOf_getD (s t : List Char) (j i : ℕ) (h : i ≤ s.length) :
    (rowOf s t j).getD i 0 = editDistance (s.take i) (t.take j) := by
  rw [List.getD_eq_getElem _ _ (by rw [rowOf_length]; omega)]
  simp [rowOf]

theorem rowOf_getElem (s t : List Char) (j i : ℕ) (hi : i ≤ s.length)
    (h : i < (rowOf s t j).length) :
    (rowOf s t j)[i] = editDistance (s.take i) (t.take j) := by
  rw [← List.getD_eq_getElem _ 0 h]
  exact rowOf_getD s t j i hi

theorem headD_drop (l : List ℕ) (k : ℕ) : (l.drop k).headD 0 = l.getD k 0 := by
  rw [List.headD_eq_head?, List.head?_drop, List.getD_eq_getElem?_getD]

theorem buildRowAux_spec (s t : List Char) (j : ℕ) (hj : j < t.length) :
    ∀ (as : List Char) (i : ℕ), s.drop i = as →
      buildRowAux t[j] as ((rowOf s t j).drop (i + 1))
          (editDistance (s.take i) (t.take j))
          (editDistance (s.take i) (t.take (j + 1))) =
        (rowOf s t (j + 1)).drop (i + 1) := by
  intro as
  induction as with
  | nil =>
    intro i hdrop
    have hlen := congrArg List.length hdrop
    simp only [List.length_drop, List.length_nil] at hlen
    rw [buildRowAux]
    symm
    apply List.drop_eq_nil_of_le
    rw [rowOf_length]
    omega
  | cons a as ihas =>
    intro i hdrop
    have hlen := congrArg List.length hdrop
    simp only [List.length_drop, List.length_cons] at hlen
    have hi : i < s.length := by omega
    have hcons := List.drop_eq_getElem_cons hi
    rw [hdrop] at hcons
    injection hcons with ha has
    simp only [buildRowAux]
    rw [headD_drop, List.tail_drop, rowOf_getD s t j (i + 1) (by omega)]
    subst ha
    rw [← cell_succ_succ s t i j hi hj, ihas (i + 1) has.symm]
    have hlt : i + 1 < (rowOf s t (j + 1)).length := by rw [rowOf_length]; omega
    rw [List.drop_eq_getElem_cons hlt, rowOf_getElem s t (j + 1) (i + 1) (by omega) hlt]

theorem buildRow_spec (s t : List Char) (j : ℕ) (hj : j < t.length) :
    buildRow s (t[j]) (rowOf s t j) = rowOf s t (j + 1) := by
  obtain ⟨p0, rest, hrow⟩ : ∃ p0 rest, rowOf s t j = p0 :: rest := by
    rcases h : rowOf s t j with _ | ⟨p0, rest⟩
    · have := rowOf_length s t j
      rw [h] at this
      simp at this
    · exact ⟨p0, rest, rfl⟩
  have hp0 : p0 = editDistance (s.take 0) (t.take j) := by
    have h0 := rowOf_getD s t j 0 (by omega)
    rw [hrow] at h0
    simpa only [List.getD_cons_zero] using h0
  have hrest : rest = (rowOf s t j).drop 1 := by rw [hrow]; simp
  have hfill := buildRowAux_spec s t j hj s 0 rfl
  rw [hrow]
  simp only [buildRow]
  rw [hp0, hrest]
  have hp1 : editDistance (s.take 0) (t.take j) + 1 =
      editDistance (s.take 0) (t.take (j + 1)) := by
    rw [cell_zero_right s t j (by omega), cell_zero_right s t (j + 1) (by omega)]
  rw [hp1, hfill]
  have hlt : 0 < (rowOf s t (j + 1)).length := by rw [rowOf_length]; omega
  have hhead := List.drop_eq_getElem_cons hlt (l := rowOf s t (j + 1))
  rw [List.drop_zero, rowOf_getElem s t (j + 1) 0 (by omega) hlt] at hhead
  simpa using hhead.symm

theorem rowOf_zero (s t : List Char) : rowOf s t 0 = List.range (s.length + 1) := by
  rw [rowOf]
  have h : ∀ i ∈ List.range (s.length + 1),
      editDistance (s.take i) (t.take 0) = i := by
    intro i hi
    rw [List.mem_range] at hi
    exact cell_zero_left s t i (by omega)
  rw [List.map_congr_left h]
  simp

theorem levFinalRow_spec (s t : List Char) : levFinalRow s t = rowOf s t t.length := by
  suffices h : ∀ (v u : List Char), u ++ v = t →
      v.foldl (fun prev b => buildRow s b prev) (rowOf s t u.length) =
        rowOf s t t.length by
    have h0 := h t [] rfl
    rw [levFinalRow, ← rowOf_zero s t]
    simpa using h0
  intro v
  induction v with
  | nil =>
    intro u hu
    rw [List.foldl_nil]
    have : u.length = t.length := by rw [← hu]; simp
    rw [this]
  | cons b v ihv =>
    intro u hu
    rw [List.foldl_cons]
    have hul : u.length < t.length := by
      rw [← hu]
      simp only [List.length_append, List.length_cons]
      omega
    have hb : t[u.length] = b := by
      subst hu
      rw [List.getElem_append_right le_rfl]
      simp
    rw [← hb, buildRow_spec s t u.length hul]
    have hlen1 : u.length + 1 = (u ++ [b]).length := by simp
    rw [hlen1]
    exact ihv (u ++ [b]) (by rw [← hu]; simp)

theorem levFinalRow_getD (s t : List Char) :
    (levFinalRow s t).getD s.length 0 = editDistance s t := by
  rw [levFinalRow_spec, rowOf_getD s t t.length s.length le_rfl, List.take_length,
    List.take_length]

theorem calculateSimilarity_eq (str1 str2 : List Char) :
    calculateSimilarity str1 str2 =
      if max str1.length str2.length = 0 then 1
      else (((max str1.length str2.length : ℕ) : ℚ) - editDistance str1 str2) /
        ((max str1.length str2.length : ℕ) : ℚ) := by
  simp only [calculateSimilarity, levFinalRow_getD]

theorem calculateSimilarity_nonneg (a b : List Char) : 0 ≤ calculateSimilarity a b := by
  rw [calculateSimilarity_eq]
  split
  · norm_num
  · have hd := editDistance_le_max a b
    apply div_nonneg
    · rw [sub_nonneg]
      exact_mod_cast hd
    · positivity

theorem calculateSimilarity_le_one (a b : List Char) : calculateSimilarity a b ≤ 1 := by
  rw [calculateSimilarity_eq]
  split
  · norm_num
  · rename_i hm
    have hm' : (0 : ℚ) < ((max a.length b.length : ℕ) : ℚ) := by
      have : 0 < max a.length b.length := Nat.pos_of_ne_zero hm
      exact_mod_cast this
    rw [div_le_one hm']
    have : (0 : ℚ) ≤ ((editDistance a b : ℕ) : ℚ) := by positivity
    linarith

theorem calculateSimilarity_self (a : List Char) : calculateSimilarity a a = 1 := by
  rw [calculateSimilarity_eq]
  split
  · rfl
  · rename_i hm
    rw [editDistance_self]
    simp only [max_self, Nat.cast_zero, sub_zero]
    have hne : ((a.length : ℚ)) ≠ 0 := by
      have h1 : a.length ≠ 0 := by omega
      exact_mod_cast h1
    rw [div_self hne]

theorem calculateSimilarity_comm (a b : List Char) :
    calculateSimilarity a b = calculateSimilarity b a := by
  rw [calculateSimilarity_eq, calculateSimilarity_eq, editDistance_comm a b,
    max_comm a.length b.length]

theorem calculateSimilarity_eq_one_iff (a b : List Char) :
    calculateSimilarity a b = 1 ↔ a = b := by
  rw [calculateSimilarity_eq]
  by_cases hm : max a.length b.length = 0
  · have ha : a = [] := List.eq_nil_of_length_eq_zero (by omega)
    have hb : b = [] := List.eq_nil_of_length_eq_zero (by omega)
    subst ha; subst hb
    simp
  · have hm' : (0 : ℚ) < ((max a.length b.length : ℕ) : ℚ) := by
      have : 0 < max a.length b.length := Nat.pos_of_ne_zero hm
      exact_mod_cast this
    rw [if_neg hm, div_eq_one_iff_eq (ne_of_gt hm'), sub_eq_self]
    rw [show ((editDistance a b : ℕ) : ℚ) = 0 ↔ editDistance a b = 0 by exact_mod_cast Iff.rfl]
    exact editDistance_eq_zero_iff a b

/-! ## Rounding -/

theorem jsRound_nonneg (q : ℚ) (h : 0 ≤ q) : 0 ≤ jsRound q := by
  rw [jsRound]
  apply Int.le_floor.mpr
  push_cast
  linarith

theorem jsRound_le (q : ℚ) (n : ℤ) (h : q ≤ (n : ℚ)) : jsRound q ≤ n := by
  rw [jsRound]
  have h1 : ⌊q + 1 / 2⌋ ≤ ⌊(n : ℚ) + 1 / 2⌋ := Int.floor_le_floor (by linarith)
  have h2 : ⌊(n : ℚ) + 1 / 2⌋ = n := by
    rw [Int.floor_int_add]
    norm_num
  omega

theorem analyzeWordScore_bounds (s t : List Char) :
    0 ≤ (analyzeWordScore s t).1 ∧ (analyzeWordScore s t).1 ≤ 100 := by
  unfold analyzeWordScore
  split_ifs with h1 h2 h3
  · norm_num
  · norm_num
  · norm_num
  · simp only []
    constructor
    · apply jsRound_nonneg
      exact mul_nonneg (calculateSimilarity_nonneg s t) (by norm_num)
    · apply jsRound_le
      have hle := calculateSimilarity_le_one s t
      have := mul_le_mul_of_nonneg_right hle (by norm_num : (0 : ℚ) ≤ 100)
      push_cast
      linarith

/-! ## Tokeniser properties -/

theorem jsSplit_ne_nil :
    ∀ (n : ℕ) (l : List Char), l.length ≤ n →
      (∀ cur, jsSplitAux l cur ≠ []) ∧ jsSplitSep l ≠ [] := by
  intro n
  induction n with
  | zero =>
    intro l h
    have hl : l = [] := List.eq_nil_of_length_eq_zero (by omega)
    subst hl
    refine ⟨fun cur => by simp [jsSplitAux], by simp [jsSplitSep]⟩
  | succ n ih =>
    intro l h
    rcases l with _ | ⟨c, cs⟩
    · refine ⟨fun cur => by simp [jsSplitAux], by simp [jsSplitSep]⟩
    · simp only [List.length_cons] at h
      have ihcs := ih cs (by omega)
      constructor
      · intro cur
        rw [jsSplitAux]
        split
        · simp
        · exact ihcs.1 (c :: cur)
      · rw [jsSplitSep]
        split
        · exact ihcs.2
        · exact ihcs.1 [c]

theorem tokenize_ne_nil (s : List Char) : tokenize s ≠ [] :=
  (jsSplit_ne_nil (trim (lowerStr s)).length _ le_rfl).1 []

theorem tokenize_length_pos (s : List Char) : 1 ≤ (tokenize s).length := by
  have h := tokenize_ne_nil s
  have := List.length_pos.mpr h
  omega

theorem getLast?_tail_not_space {c : Char} {cs : List Char}
    (hlast : ∀ c', (c :: cs).getLast? = some c' → isSpace c' = false) :
    ∀ c', cs.getLast? = some c' → isSpace c' = false := by
  intro c' h'
  apply hlast
  rcases cs with _ | ⟨d, ds⟩
  · simp at h'
  · rw [List.getLast?_cons_cons]
    exact h'

theorem tail_ne_nil_of_space {c : Char} {cs : List Char} (hsp : isSpace c = true)
    (hlast : ∀ c', (c :: cs).getLast? = some c' → isSpace c' = false) : cs ≠ [] := by
  rintro rfl
  have h := hlast c (by simp)
  rw [h] at hsp
  cases hsp

theorem jsSplit_tokens_ne_nil :
    ∀ (n : ℕ) (l : List Char), l.length ≤ n →
      (∀ c, l.getLast? = some c → isSpace c = false) →
      (∀ cur, (cur = [] → ∃ c cs, l = c :: cs ∧ isSpace c = false) →
        ∀ w ∈ jsSplitAux l cur, w ≠ []) ∧
      ((∃ c cs, l = c :: cs) → ∀ w ∈ jsSplitSep l, w ≠ []) := by
  intro n
  induction n with
  | zero =>
    intro l hlen _
    have hl : l = [] := List.eq_nil_of_length_eq_zero (by omega)
    subst hl
    constructor
    · intro cur hcur w hw
      simp only [jsSplitAux, List.mem_singleton] at hw
      subst hw
      intro hrev
      have hc0 : cur = [] := by simpa using hrev
      obtain ⟨c, cs, hceq, _⟩ := hcur hc0
      exact absurd hceq (by simp)
    · rintro ⟨c, cs, hceq⟩
      exact absurd hceq (by simp)
  | succ n ih =>
    intro l hlen hlast
    rcases l with _ | ⟨c, cs⟩
    · constructor
      · intro cur hcur w hw
        simp only [jsSplitAux, List.mem_singleton] at hw
        subst hw
        intro hrev
        have hc0 : cur = [] := by simpa using hrev
        obtain ⟨c, cs, hceq, _⟩ := hcur hc0
        exact absurd hceq (by simp)
      · rintro ⟨c, cs, hceq⟩
        exact absurd hceq (by simp)
    · simp only [List.length_cons] at hlen
      have ihcs := ih cs (by omega) (getLast?_tail_not_space hlast)
      constructor
      · intro cur hcur w hw
        rw [jsSplitAux] at hw
        by_cases hsp : isSpace c
        · rw [if_pos hsp] at hw
          rcases List.mem_cons.mp hw with hw | hw
          · subst hw
            intro hrev
            have hc0 : cur = [] := by simpa using hrev
            obtain ⟨c', cs', hceq, hc'⟩ := hcur hc0
            injection hceq with h1 _
            subst h1
            rw [hc'] at hsp
            cases hsp
          · have hcs : cs ≠ [] := tail_ne_nil_of_space hsp hlast
            obtain ⟨d, ds, hds⟩ := List.exists_cons_of_ne_nil hcs
            exact ihcs.2 ⟨d, ds, hds⟩ w hw
        · rw [if_neg hsp] at hw
          exact ihcs.1 (c :: cur) (by intro hc0; simp at hc0) w hw
      · rintro ⟨c0, cs0, _⟩ w hw
        rw [jsSplitSep] at hw
        by_cases hsp : isSpace c
        · rw [if_pos hsp] at hw
          have hcs : cs ≠ [] := tail_ne_nil_of_space hsp hlast
          obtain ⟨d, ds, hds⟩ := List.exists_cons_of_ne_nil hcs
          exact ihcs.2 ⟨d, ds, hds⟩ w hw
        · rw [if_neg hsp] at hw
          exact ihcs.1 [c] (by intro hc0; simp at hc0) w hw

theorem head?_dropWhile_not (p : Char → Bool) :
    ∀ (l : List Char) (c : Char), (l.dropWhile p).head? = some c → p c = false := by
  intro l
  induction l with
  | nil => intro c h; simp at h
  | cons a l ih =>
    intro c h
    rw [List.dropWhile_cons] at h
    split at h
    · exact ih c h
    · rename_i hpa
      simp only [List.head?_cons, Option.some.injEq] at h
      subst h
      simpa using hpa

theorem trim_getLast_not_space (l : List Char) :
    ∀ c, (trim l).getLast? = some c → isSpace c = false := by
  intro c h
  rw [trim, List.getLast?_reverse] at h
  exact head?_dropWhile_not isSpace _ c h

theorem trim_head_not_space (l : List Char) :
    ∀ c, (trim l).head? = some c → isSpace c = false := by
  intro c h
  rw [trim, List.head?_reverse] at h
  have hv : (l.dropWhile isSpace).reverse.dropWhile isSpace ≠ [] := by
    intro h0
    rw [h0] at h
    simp at h
  have h1 := List.getLast?_append_of_ne_nil
    ((l.dropWhile isSpace).reverse.takeWhile isSpace) hv
  rw [List.takeWhile_append_dropWhile, List.getLast?_reverse] at h1
  rw [← h1] at h
  exact head?_dropWhile_not isSpace l c h

theorem tokenize_eq_single_empty (s : List Char) (h : trim (lowerStr s) = []) :
    tokenize s = [[]] := by
  rw [tokenize, jsSplitWs, h]
  simp [jsSplitAux]

theorem tokenize_tokens_ne_nil (s : List Char) (h : trim (lowerStr s) ≠ []) :
    ∀ w ∈ tokenize s, w ≠ [] := by
  obtain ⟨c, cs, hcs⟩ := List.exists_cons_of_ne_nil h
  have hhead : isSpace c = false := by
    apply trim_head_not_space (lowerStr s)
    rw [hcs]
    rfl
  intro w hw
  refine (jsSplit_tokens_ne_nil (trim (lowerStr s)).length _ le_rfl
    (trim_getLast_not_space (lowerStr s))).1 [] ?_ w ?_
  · intro _
    exact ⟨c, cs, hcs, hhead⟩
  · rw [tokenize, jsSplitWs] at hw
    exact hw

theorem tokenize_getD_ne_nil (s : List Char) (h : trim (lowerStr s) ≠ []) (i : ℕ)
    (hi : i < (tokenize s).length) : (tokenize s).getD i [] ≠ [] := by
  rw [List.getD_eq_getElem _ _ hi]
  exact tokenize_tokens_ne_nil s h _ (List.getElem_mem hi)

theorem singleton_empty_getD (i : ℕ) : ([[]] : List (List Char)).getD i [] = [] := by
  cases i <;> rfl


/-! ## Structure of the analysis result -/

theorem analyze_breakdown_length (spoken target : List Char) :
    (analyzePronounciation spoken target).wordBreakdown.length =
      max (tokenize spoken).length (tokenize target).length := by
  simp [analyzePronounciation]

theorem analyze_breakdown_getElem (spoken target : List Char) (i : ℕ)
    (h : i < (analyzePronounciation spoken target).wordBreakdown.length) :
    (analyzePronounciation spoken target).wordBreakdown[i] =
      { word := (tokenize target).getD i [],
        expected := (getPhoneticBreakdown target).getD i (.str []),
        spoken := (tokenize spoken).getD i [],
        score := (analyzeWordScore ((tokenize spoken).getD i [])
          ((tokenize target).getD i [])).1,
        feedback := (analyzeWordScore ((tokenize spoken).getD i [])
          ((tokenize target).getD i [])).2 } := by
  simp [analyzePronounciation, List.getElem_map, List.getElem_range]

theorem analyze_overall (spoken target : List Char) :
    (analyzePronounciation spoken target).overallScore =
      jsRound (((((analyzePronounciation spoken target).wordBreakdown.map
        WordAnalysis.score).sum : ℤ) : ℚ) /
        (max (tokenize spoken).length (max (tokenize target).length 1) : ℚ)) := by
  simp [analyzePronounciation]

theorem analyze_breakdown_score_bounds (spoken target : List Char) :
    ∀ e ∈ (analyzePronounciation spoken target).wordBreakdown,
      0 ≤ e.score ∧ e.score ≤ 100 := by
  intro e he
  simp only [analyzePronounciation, List.mem_map, List.mem_range] at he
  obtain ⟨i, _, rfl⟩ := he
  simpa using analyzeWordScore_bounds ((tokenize spoken).getD i [])
    ((tokenize target).getD i [])

theorem analyze_overall_bounds (spoken target : List Char) :
    0 ≤ (analyzePronounciation spoken target).overallScore ∧
      (analyzePronounciation spoken target).overallScore ≤ 100 := by
  have hb := analyze_breakdown_score_bounds spoken target
  have hlen := analyze_breakdown_length spoken target
  have hsum_lo : 0 ≤ ((analyzePronounciation spoken target).wordBreakdown.map
      WordAnalysis.score).sum := by
    apply List.sum_nonneg
    intro x hx
    simp only [List.mem_map] at hx
    obtain ⟨e, he, rfl⟩ := hx
    exact (hb e he).1
  have hsum_hi : ((analyzePronounciation spoken target).wordBreakdown.map
      WordAnalysis.score).sum ≤
      ((analyzePronounciation spoken target).wordBreakdown.length : ℤ) * 100 := by
    have h := List.sum_le_card_nsmul
      ((analyzePronounciation spoken target).wordBreakdown.map WordAnalysis.score)
      100 (by
        intro x hx
        simp only [List.mem_map] at hx
        obtain ⟨e, he, rfl⟩ := hx
        exact (hb e he).2)
    simpa [mul_comm] using h
  have hsl := tokenize_length_pos spoken
  have htl := tokenize_length_pos target
  have hd : (tokenize spoken).length ⊔ ((tokenize target).length ⊔ 1) =
      (analyzePronounciation spoken target).wordBreakdown.length := by
    rw [hlen]
    omega
  have hdQ : (((tokenize spoken).length : ℚ)) ⊔ ((((tokenize target).length : ℚ)) ⊔ 1) =
      (((analyzePronounciation spoken target).wordBreakdown.length : ℕ) : ℚ) := by
    exact_mod_cast congrArg (fun n : ℕ => (n : ℚ)) hd
  rw [analyze_overall, hdQ]
  have hnpos : (0 : ℚ) <
      ((analyzePronounciation spoken target).wordBreakdown.length : ℚ) := by
    have h0 : 0 < (analyzePronounciation spoken target).wordBreakdown.length := by
      rw [hlen]
      omega
    exact_mod_cast h0
  constructor
  · apply jsRound_nonneg
    apply div_nonneg _ (le_of_lt hnpos)
    exact_mod_cast hsum_lo
  · apply jsRound_le
    rw [div_le_iff₀ hnpos]
    have hc : (((analyzePronounciation spoken target).wordBreakdown.map
        WordAnalysis.score).sum : ℚ) ≤
        ((analyzePronounciation spoken target).wordBreakdown.length : ℚ) * 100 := by
      exact_mod_cast hsum_hi
    have h100 : (((100 : ℤ)) : ℚ) = (100 : ℚ) := by norm_num
    rw [h100, mul_comm]
    exact hc

/-! ## Degenerate inputs -/

theorem analyze_missing_all (spoken target : List Char)
    (hs : trim (lowerStr spoken) = []) (ht : trim (lowerStr target) ≠ []) :
    ∀ e ∈ (analyzePronounciation spoken target).wordBreakdown,
      e.score = 0 ∧ e.feedback = "Missing word" := by
  intro e he
  simp only [analyzePronounciation, List.mem_map, List.mem_range] at he
  obtain ⟨i, hi, rfl⟩ := he
  have hsw : (tokenize spoken).getD i [] = [] := by
    rw [tokenize_eq_single_empty spoken hs]
    exact singleton_empty_getD i
  have hn : max (tokenize spoken).length (tokenize target).length =
      (tokenize target).length := by
    have h1 : (tokenize spoken).length = 1 := by
      rw [tokenize_eq_single_empty spoken hs]
      rfl
    have := tokenize_length_pos target
    omega
  rw [hn] at hi
  have htw : (tokenize target).getD i [] ≠ [] := tokenize_getD_ne_nil target ht i hi
  rw [hsw]
  simp only [analyzeWordScore]
  split_ifs with h1 h2 h3
  · exact ⟨rfl, rfl⟩
  all_goals exact absurd ⟨trivial, htw⟩ h1

theorem analyze_extra_all (spoken target : List Char)
    (hs : trim (lowerStr spoken) ≠ []) (ht : trim (lowerStr target) = []) :
    ∀ e ∈ (analyzePronounciation spoken target).wordBreakdown,
      e.score = 20 ∧ e.feedback = "Extra word" := by
  intro e he
  simp only [analyzePronounciation, List.mem_map, List.mem_range] at he
  obtain ⟨i, hi, rfl⟩ := he
  have htw : (tokenize target).getD i [] = [] := by
    rw [tokenize_eq_single_empty target ht]
    exact singleton_empty_getD i
  have hn : max (tokenize spoken).length (tokenize target).length =
      (tokenize spoken).length := by
    have h1 : (tokenize target).length = 1 := by
      rw [tokenize_eq_single_empty target ht]
      rfl
    have := tokenize_length_pos spoken
    omega
  rw [hn] at hi
  have hsw : (tokenize spoken).getD i [] ≠ [] := tokenize_getD_ne_nil spoken hs i hi
  rw [htw]
  simp only [analyzeWordScore]
  split_ifs with h1 h2 h3 <;>
    first
      | exact ⟨rfl, rfl⟩
      | exact absurd rfl h1.2
      | exact absurd h3 hsw
      | exact absurd ⟨hsw, trivial⟩ h2

theorem analyze_both_empty (spoken target : List Char)
    (hs : trim (lowerStr spoken) = []) (ht : trim (lowerStr target) = []) :
    (analyzePronounciation spoken target).wordBreakdown.map WordAnalysis.score =
      [100] := by
  simp only [analyzePronounciation]
  rw [tokenize_eq_single_empty spoken hs, tokenize_eq_single_empty target ht]
  rfl


/-! ## Totality of the checked scorer -/

theorem levCellO_eq (str1 str2 : List Char) :
    ∀ (n j i : ℕ), j + i ≤ n → j ≤ str2.length → i ≤ str1.length →
      levCellO str1 str2 j i = some (editDistance (str1.take i) (str2.take j)) := by
  intro n
  induction n with
  | zero =>
    intro j i hn hj hi
    have hj0 : j = 0 := by omega
    have hi0 : i = 0 := by omega
    subst hj0; subst hi0
    rw [cell_zero_right str1 str2 0 (by omega)]
    simp [levCellO]
  | succ n ihn =>
    intro j i hn hj hi
    match j, i with
    | 0, i =>
      rw [cell_zero_left str1 str2 i hi]
      simp [levCellO]
    | j + 1, 0 =>
      rw [cell_zero_right str1 str2 (j + 1) hj]
      simp [levCellO]
    | j + 1, i + 1 =>
      have hi' : i < str1.length := by omega
      have hj' : j < str2.length := by omega
      have h1 := ihn (j + 1) i (by omega) hj (by omega)
      have h2 := ihn j (i + 1) (by omega) (by omega) hi
      have h3 := ihn j i (by omega) (by omega) (by omega)
      simp only [levCellO]
      rw [List.getElem?_eq_getElem hi', List.getElem?_eq_getElem hj', h1, h2, h3,
        cell_succ_succ str1 str2 i j hi' hj']

theorem calculateSimilarityO_eq (str1 str2 : List Char) :
    calculateSimilarityO str1 str2 = some (calculateSimilarity str1 str2) := by
  by_cases hm : max str1.length str2.length = 0
  · simp [calculateSimilarityO, calculateSimilarity, hm]
  · simp only [calculateSimilarityO, calculateSimilarity, if_neg hm]
    rw [levCellO_eq str1 str2 (str2.length + str1.length) str2.length str1.length
      le_rfl le_rfl le_rfl, levFinalRow_getD]
    simp [List.take_length]

theorem analyzeWordScoreO_eq (s t : List Char) :
    analyzeWordScoreO s t = some (analyzeWordScore s t) := by
  simp only [analyzeWordScoreO, analyzeWordScore]
  split_ifs <;> simp [calculateSimilarityO_eq]

theorem mapM_option_eq_map {α β : Type} (f : α → Option β) (g : α → β) :
    ∀ l : List α, (∀ a ∈ l, f a = some (g a)) → l.mapM f = some (l.map g) := by
  intro l
  induction l with
  | nil => intro _; rfl
  | cons a l ih =>
    intro h
    rw [List.mapM_cons, h a (by simp), ih (fun x hx => h x (by simp [hx]))]
    rfl

theorem analyzePronounciationO_eq (spoken target : List Char) :
    analyzePronounciationO spoken target = some (analyzePronounciation spoken target) := by
  have hpoint : ∀ i ∈ List.range
      (max (tokenize spoken).length (tokenize target).length),
      ((analyzeWordScoreO ((tokenize spoken).getD i [])
          ((tokenize target).getD i [])).map
        fun sf => ({ word := (tokenize target).getD i [],
                     expected := (getPhoneticBreakdown target).getD i (.str []),
                     spoken := (tokenize spoken).getD i [],
                     score := sf.1, feedback := sf.2 } : WordAnalysis)) =
      some ({ word := (tokenize target).getD i [],
              expected := (getPhoneticBreakdown target).getD i (.str []),
              spoken := (tokenize spoken).getD i [],
              score := (analyzeWordScore ((tokenize spoken).getD i [])
                ((tokenize target).getD i [])).1,
              feedback := (analyzeWordScore ((tokenize spoken).getD i [])
                ((tokenize target).getD i [])).2 } : WordAnalysis) := by
    intro i _
    rw [analyzeWordScoreO_eq]
    rfl
  have hmap := mapM_option_eq_map _ _ _ hpoint
  simp only [analyzePronounciationO]
  rw [hmap]
  rfl

/-! ## The live-analysis timer -/

theorem timerInv_init : timerInv initState := Or.inl rfl

theorem timerInv_step {s s' : TimerState} (hinv : timerInv s) (hstep : TimerStep s s') :
    timerInv s' := by
  cases hstep with
  | start h =>
    rcases hinv with h0 | ⟨i, _, _, hL⟩
    · right
      refine ⟨s.nextId, ?_, rfl, rfl⟩
      simp [onStartStep, h0]
    · rw [hL] at h
      cases h
  | recEnd =>
    left
    rcases hinv with h0 | ⟨i, hA, hR, _⟩
    · cases hI : s.intervalRef <;>
        simp [onEndStep, clearAnalysisInterval, hI, h0]
    · simp [onEndStep, clearAnalysisInterval, hR, hA]
  | recError =>
    left
    rcases hinv with h0 | ⟨i, hA, hR, _⟩
    · cases hI : s.intervalRef <;>
        simp [onErrorStep, clearAnalysisInterval, hI, h0]
    · simp [onErrorStep, clearAnalysisInterval, hR, hA]
  | reset =>
    left
    rcases hinv with h0 | ⟨i, hA, hR, _⟩
    · cases hI : s.intervalRef <;>
        simp [resetStep, clearAnalysisInterval, hI, h0]
    · simp [resetStep, clearAnalysisInterval, hR, hA]

theorem timer_reachable_inv : ∀ s : TimerState, TimerReachable s → timerInv s := by
  intro s h
  induction h with
  | init => exact timerInv_init
  | step _ hstep ih => exact timerInv_step ih hstep

theorem timer_exit_clears (s : TimerState) (hinv : timerInv s) :
    (onEndStep s).activeTimers = [] ∧ (onErrorStep s).activeTimers = [] ∧
      (resetStep s).activeTimers = [] := by
  rcases hinv with h0 | ⟨i, hA, hR, _⟩
  · refine ⟨?_, ?_, ?_⟩ <;>
      (cases hI : s.intervalRef <;>
        simp [onEndStep, onErrorStep, resetStep, clearAnalysisInterval, hI, h0])
  · refine ⟨?_, ?_, ?_⟩ <;>
      simp [onEndStep, onErrorStep, resetStep, clearAnalysisInterval, hR, hA]


/-! ## Helper characterisations of the per-word scorer -/

theorem analyzeWordScore_missing (s t : List Char) (ht : t ≠ []) (hs : s = []) :
    analyzeWordScore s t = (0, "Missing word") := by
  subst hs
  simp only [analyzeWordScore]
  split_ifs with h1 h2 h3 <;>
    first
      | rfl
      | exact absurd ⟨trivial, ht⟩ h1

theorem analyzeWordScore_extra (s t : List Char) (hs : s ≠ []) (ht : t = []) :
    analyzeWordScore s t = (20, "Extra word") := by
  subst ht
  simp only [analyzeWordScore]
  split_ifs with h1 h2 h3 <;>
    first
      | rfl
      | exact absurd rfl h1.2
      | exact absurd h3 hs
      | exact absurd ⟨hs, trivial⟩ h2

theorem analyzeWordScore_same (s t : List Char) (hst : s = t) :
    analyzeWordScore s t = (100, "Perfect match") := by
  subst hst
  simp only [analyzeWordScore]
  split_ifs with h1 h2 h3 <;>
    first
      | rfl
      | exact absurd h1.1 h1.2
      | exact absurd h2.2 h2.1

theorem analyzeWordScore_diff (s t : List Char) (hs : s ≠ []) (ht : t ≠ [])
    (hne : s ≠ t) :
    analyzeWordScore s t =
      (jsRound (calculateSimilarity s t * 100),
        feedbackBand (jsRound (calculateSimilarity s t * 100))) := by
  simp only [analyzeWordScore]
  split_ifs with h1 h2 h3 <;>
    first
      | rfl
      | exact absurd h1.2 (fun hc => hc h1.1)
      | exact absurd h1.1 hs
      | exact absurd h2.2 ht


/-! ## The claims -/

/-- C1: at every aligned position `i` of `analyzePronounciation spoken target`,
with `s` the `i`-th spoken token (or empty) and `t` the `i`-th target token (or
empty): if `t` is non-empty and `s` empty the entry scores 0 with feedback
"Missing word"; if `s` is non-empty and `t` empty it scores 20 with "Extra word";
if `s = t` it scores 100 with "Perfect match"; otherwise it scores
`round(similarity(s, t) * 100)` with the banded feedback label (≥90 "Excellent
pronunciation", ≥75 "Good pronunciation", ≥60 "Needs improvement", ≥40
"Significant difference", else "Very different from target"). -/
theorem claim_C1 (spoken target : List Char) (i : ℕ)
    (h : i < (analyzePronounciation spoken target).wordBreakdown.length) :
    ((tokenize target).getD i [] ≠ [] → (tokenize spoken).getD i [] = [] →
      (analyzePronounciation spoken target).wordBreakdown[i].score = 0 ∧
      (analyzePronounciation spoken target).wordBreakdown[i].feedback =
        "Missing word") ∧
    ((tokenize spoken).getD i [] ≠ [] → (tokenize target).getD i [] = [] →
      (analyzePronounciation spoken target).wordBreakdown[i].score = 20 ∧
      (analyzePronounciation spoken target).wordBreakdown[i].feedback =
        "Extra word") ∧
    ((tokenize spoken).getD i [] = (tokenize target).getD i [] →
      (analyzePronounciation spoken target).wordBreakdown[i].score = 100 ∧
      (analyzePronounciation spoken target).wordBreakdown[i].feedback =
        "Perfect match") ∧
    ((tokenize spoken).getD i [] ≠ [] → (tokenize target).getD i [] ≠ [] →
      (tokenize spoken).getD i [] ≠ (tokenize target).getD i [] →
      (analyzePronounciation spoken target).wordBreakdown[i].score =
        jsRound (calculateSimilarity ((tokenize spoken).getD i [])
          ((tokenize target).getD i []) * 100) ∧
      (analyzePronounciation spoken target).wordBreakdown[i].feedback =
        (if 90 ≤ jsRound (calculateSimilarity ((tokenize spoken).getD i [])
            ((tokenize target).getD i []) * 100) then "Excellent pronunciation"
         else if 75 ≤ jsRound (calculateSimilarity ((tokenize spoken).getD i [])
            ((tokenize target).getD i []) * 100) then "Good pronunciation"
         else if 60 ≤ jsRound (calculateSimilarity ((tokenize spoken).getD i [])
            ((tokenize target).getD i []) * 100) then "Needs improvement"
         else if 40 ≤ jsRound (calculateSimilarity ((tokenize spoken).getD i [])
            ((tokenize target).getD i []) * 100) then "Significant difference"
         else "Very different from target")) := by
  have hb := analyze_breakdown_getElem spoken target i h
  refine ⟨?_, ?_, ?_, ?_⟩
  · intro ht hs
    rw [hb, analyzeWordScore_missing _ _ ht hs]
    exact ⟨rfl, rfl⟩
  · intro hs ht
    rw [hb, analyzeWordScore_extra _ _ hs ht]
    exact ⟨rfl, rfl⟩
  · intro hst
    rw [hb, analyzeWordScore_same _ _ hst]
    exact ⟨rfl, rfl⟩
  · intro hs ht hne
    rw [hb, analyzeWordScore_diff _ _ hs ht hne]
    exact ⟨rfl, rfl⟩

/-- C1 witness: at the concrete input spoken = target = "hello", position 0 is a
perfect match and scores 100. -/
theorem claim_C1_witness :
    ((analyzePronounciation ("hello".toList) ("hello".toList)).wordBreakdown.map
      WordAnalysis.score).getD 0 0 = 100 := by
  have h0 : 0 <
      (analyzePronounciation ("hello".toList) ("hello".toList)).wordBreakdown.length := by
    decide
  have h := (claim_C1 ("hello".toList) ("hello".toList) 0 h0).2.2.1 (by decide)
  rw [List.getD_eq_getElem _ _ (by simpa using h0), List.getElem_map]
  exact h.1

/-- C2: the similarity scorer computes normalised Levenshtein distance,
`(maxLen - editDistance) / maxLen` with unit-cost substitution, insertion and
deletion, is 1 when both strings are empty, and in particular
`similarity("", "cat") = 0` and `similarity("cat", "cats") = 3/4`. -/
theorem claim_C2 :
    (∀ a b : List Char, calculateSimilarity a b =
      if max a.length b.length = 0 then 1
      else (((max a.length b.length : ℕ) : ℚ) - editDistance a b) /
        ((max a.length b.length : ℕ) : ℚ)) ∧
    calculateSimilarity [] [] = 1 ∧
    calculateSimilarity [] ("cat".toList) = 0 ∧
    calculateSimilarity ("cat".toList) ("cats".toList) = 3 / 4 := by
  refine ⟨calculateSimilarity_eq, rfl, ?_, ?_⟩
  · rw [calculateSimilarity_eq]
    have h1 : (([] : List Char)).length = 0 := rfl
    have h2 : ("cat".toList).length = 3 := by decide
    have hed : editDistance [] ("cat".toList) = 3 := by decide
    rw [h1, h2, hed]
    norm_num
  · rw [calculateSimilarity_eq]
    have h1 : ("cat".toList).length = 3 := by decide
    have h2 : ("cats".toList).length = 4 := by decide
    have hed : editDistance ("cat".toList) ("cats".toList) = 1 := by decide
    rw [h1, h2, hed]
    norm_num

/-- C3: the word breakdown has one entry per aligned position
(`max(len(spokenTokens), len(targetTokens))` entries), and the overall score is
the rounded mean of the per-word scores with the denominator floored at 1. -/
theorem claim_C3 (spoken target : List Char) :
    (analyzePronounciation spoken target).wordBreakdown.length =
      max (tokenize spoken).length (tokenize target).length ∧
    (analyzePronounciation spoken target).overallScore =
      jsRound (((((analyzePronounciation spoken target).wordBreakdown.map
        WordAnalysis.score).sum : ℤ) : ℚ) /
        (max (tokenize spoken).length (max (tokenize target).length 1) : ℚ)) :=
  ⟨analyze_breakdown_length spoken target, analyze_overall spoken target⟩

/-- C4: every per-word score and the overall score is an integer (the embedding
gives them type ℤ) in the range [0, 100]. -/
theorem claim_C4 (spoken target : List Char) :
    (∀ e ∈ (analyzePronounciation spoken target).wordBreakdown,
      0 ≤ e.score ∧ e.score ≤ 100) ∧
    0 ≤ (analyzePronounciation spoken target).overallScore ∧
    (analyzePronounciation spoken target).overallScore ≤ 100 :=
  ⟨analyze_breakdown_score_bounds spoken target,
    (analyze_overall_bounds spoken target).1, (analyze_overall_bounds spoken target).2⟩

/-- C4 witness: the bounds hold at the concrete input ("hi", "hi"). -/
theorem claim_C4_witness :
    (0 ≤ (analyzePronounciation ("hi".toList) ("hi".toList)).overallScore ∧
      (analyzePronounciation ("hi".toList) ("hi".toList)).overallScore ≤ 100) ∧
    ∀ e ∈ (analyzePronounciation ("hi".toList) ("hi".toList)).wordBreakdown,
      0 ≤ e.score ∧ e.score ≤ 100 := by
  have h := claim_C4 ("hi".toList) ("hi".toList)
  exact ⟨⟨h.2.1, h.2.2⟩, h.1⟩

/-- C5 counterexample: the claim "when the spoken transcript or the target
phrase is empty, every per-word score is 0 or 20" is false at
spoken = "" and target = "": the single produced entry compares empty token
against empty token and scores 100 ("Perfect match"). -/
theorem claim_C5_counterexample :
    ¬ (∀ e ∈ (analyzePronounciation [] []).wordBreakdown,
        e.score = 0 ∨ e.score = 20) := by
  decide

/-- C5 (amended): if exactly one of the two phrases trims to the empty string,
the defined degenerate outcome holds — every per-word score is 0 (missing word)
when the spoken side is the empty one, and 20 (extra word) when the target side
is; when both trim to empty, the single produced entry scores 100, because the
empty spoken token equals the empty target token ("Perfect match"). -/
theorem claim_C5 :
    (∀ spoken target : List Char, trim (lowerStr spoken) = [] →
      trim (lowerStr target) ≠ [] →
      ∀ e ∈ (analyzePronounciation spoken target).wordBreakdown, e.score = 0) ∧
    (∀ spoken target : List Char, trim (lowerStr spoken) ≠ [] →
      trim (lowerStr target) = [] →
      ∀ e ∈ (analyzePronounciation spoken target).wordBreakdown, e.score = 20) ∧
    (∀ spoken target : List Char, trim (lowerStr spoken) = [] →
      trim (lowerStr target) = [] →
      (analyzePronounciation spoken target).wordBreakdown.map WordAnalysis.score =
        [100]) := by
  refine ⟨?_, ?_, ?_⟩
  · intro s t hs ht e he
    exact (analyze_missing_all s t hs ht e he).1
  · intro s t hs ht e he
    exact (analyze_extra_all s t hs ht e he).1
  · intro s t hs ht
    exact analyze_both_empty s t hs ht

/-- C5 witness: concrete instances of the three degenerate cases — empty spoken
against "hi" (all scores 0), "hi" against empty target (all scores 20), and a
whitespace-only spoken phrase against an empty target (single score 100). -/
theorem claim_C5_witness :
    (∀ e ∈ (analyzePronounciation [] ("hi".toList)).wordBreakdown, e.score = 0) ∧
    (∀ e ∈ (analyzePronounciation ("hi".toList) []).wordBreakdown, e.score = 20) ∧
    (analyzePronounciation (" ".toList) []).wordBreakdown.map WordAnalysis.score =
      [100] :=
  ⟨claim_C5.1 [] ("hi".toList) (by decide) (by decide),
    claim_C5.2.1 ("hi".toList) [] (by decide) (by decide),
    claim_C5.2.2 (" ".toList) [] (by decide) (by decide)⟩

/-- C6: the similarity scorer is reflexive (`similarity(a, a) = 1`) and
symmetric (`similarity(a, b) = similarity(b, a)`). -/
theorem claim_C6 :
    (∀ a : List Char, calculateSimilarity a a = 1) ∧
    (∀ a b : List Char, calculateSimilarity a b = calculateSimilarity b a) :=
  ⟨calculateSimilarity_self, calculateSimilarity_comm⟩

/-- Characterisation of the phonetic lookup on a known word. -/
theorem phoneticLookup_known (w p : List Char) (hp : phoneticMap.lookup w = some p) :
    phoneticLookup w = .str p := by
  simp [phoneticLookup, hp]

/-- Characterisation of the phonetic lookup on an unknown word that names no
`Object.prototype` member: the cleaned word passes through unchanged. -/
theorem phoneticLookup_unknown (w : List Char) (hn : phoneticMap.lookup w = none)
    (hm : w ∉ objectProtoMembers) : phoneticLookup w = .str w := by
  simp [phoneticLookup, hn, hm]

/-- Characterisation of the phonetic lookup on a word that is no own key but
names an `Object.prototype` member: the truthy inherited member is returned. -/
theorem phoneticLookup_proto (w : List Char) (hn : phoneticMap.lookup w = none)
    (hm : w ∈ objectProtoMembers) : phoneticLookup w = .protoMember w := by
  simp [phoneticLookup, hn, hm]

/-- C7 counterexample: "constructor" cleans to itself and is not a key of the
static mapping, yet `getPhoneticBreakdown "constructor"` does not return the
cleaned token: the object-literal read hits the inherited, truthy
`Object.prototype.constructor`, so the `|| cleanWord` fallback never fires. -/
theorem claim_C7_counterexample :
    phoneticMap.lookup (cleanWordOf ("constructor".toList)) = none ∧
    (getPhoneticBreakdown ("constructor".toList)).getD 0 (.str []) ≠
      PhoneticValue.str (cleanWordOf ("constructor".toList)) ∧
    (getPhoneticBreakdown ("constructor".toList)).getD 0 (.str []) =
      PhoneticValue.protoMember ("constructor".toList) := by
  decide

/-- C7 (amended): `getPhoneticBreakdown` lower-cases the phrase, splits it on
runs of whitespace, strips non-word characters from each token, and returns one
entry per token: the phonetic transcription when the cleaned token is in the
static mapping; otherwise the cleaned token itself — unless the cleaned token
names an `Object.prototype` member (after lower-casing, only `constructor` and
`__proto__` are reachable), in which case the object-literal lookup falls
through to the prototype chain and returns the truthy inherited member instead
of the cleaned token. -/
theorem claim_C7 (text : List Char) :
    (getPhoneticBreakdown text).length = (jsSplitWs (lowerStr text)).length ∧
    ∀ i (h : i < (jsSplitWs (lowerStr text)).length),
      (∀ p, phoneticMap.lookup (cleanWordOf ((jsSplitWs (lowerStr text))[i])) =
          some p →
        (getPhoneticBreakdown text).getD i (.str []) = .str p) ∧
      (phoneticMap.lookup (cleanWordOf ((jsSplitWs (lowerStr text))[i])) = none →
        cleanWordOf ((jsSplitWs (lowerStr text))[i]) ∉ objectProtoMembers →
        (getPhoneticBreakdown text).getD i (.str []) =
          .str (cleanWordOf ((jsSplitWs (lowerStr text))[i]))) ∧
      (phoneticMap.lookup (cleanWordOf ((jsSplitWs (lowerStr text))[i])) = none →
        cleanWordOf ((jsSplitWs (lowerStr text))[i]) ∈ objectProtoMembers →
        (getPhoneticBreakdown text).getD i (.str []) =
          .protoMember (cleanWordOf ((jsSplitWs (lowerStr text))[i]))) := by
  constructor
  · simp [getPhoneticBreakdown]
  · intro i h
    have hlen : i < (getPhoneticBreakdown text).length := by
      simpa [getPhoneticBreakdown] using h
    refine ⟨?_, ?_, ?_⟩
    · intro p hp
      rw [List.getD_eq_getElem _ _ hlen]
      simp only [getPhoneticBreakdown, List.getElem_map]
      exact phoneticLookup_known _ p hp
    · intro hn hm
      rw [List.getD_eq_getElem _ _ hlen]
      simp only [getPhoneticBreakdown, List.getElem_map]
      exact phoneticLookup_unknown _ hn hm
    · intro hn hm
      rw [List.getD_eq_getElem _ _ hlen]
      simp only [getPhoneticBreakdown, List.getElem_map]
      exact phoneticLookup_proto _ hn hm

/-- C7 witness: "Hello, you!" splits into two tokens whose cleaned forms are
known words mapped to their phonetic transcriptions, the unknown cleaned token
of "XYZ!" passes through unchanged, and the cleaned token `__proto__` of
"My __proto__" hits the inherited prototype member. -/
theorem claim_C7_witness :
    (getPhoneticBreakdown ("Hello, you!".toList)).length = 2 ∧
    (getPhoneticBreakdown ("Hello, you!".toList)).getD 0 (.str []) =
      PhoneticValue.str ("hə-ˈloʊ".toList) ∧
    (getPhoneticBreakdown ("XYZ!".toList)).getD 0 (.str []) =
      PhoneticValue.str ("xyz".toList) ∧
    (getPhoneticBreakdown ("My __proto__".toList)).getD 1 (.str []) =
      PhoneticValue.protoMember ("__proto__".toList) := by
  refine ⟨?_, ?_, ?_, ?_⟩
  · rw [(claim_C7 ("Hello, you!".toList)).1]
    decide
  · exact ((claim_C7 ("Hello, you!".toList)).2 0 (by decide)).1
      ("hə-ˈloʊ".toList) (by decide)
  · exact ((claim_C7 ("XYZ!".toList)).2 0 (by decide)).2.1 (by decide) (by decide)
  · exact ((claim_C7 ("My __proto__".toList)).2 1 (by decide)).2.2
      (by decide) (by decide)

/-- C8: the scoring functions are total. The bounds-checked versions — in which
every matrix read `matrix[j][i]`, `matrix[j-1][i]`, `matrix[j-1][i-1]` and every
character read `str1[i-1]`, `str2[j-1]` fails on an out-of-bounds index, while
the explicitly defaulted token reads (`spokenWords[i] || ''`) keep their
defaults — always return `some` result, equal to the unchecked ones, for all
inputs including empty and mismatched-length strings. (`getPhoneticBreakdown`
performs no indexing at all: it is a per-token map.) -/
theorem claim_C8 :
    (∀ a b : List Char, calculateSimilarityO a b = some (calculateSimilarity a b)) ∧
    (∀ spoken target : List Char, analyzePronounciationO spoken target =
      some (analyzePronounciation spoken target)) :=
  ⟨calculateSimilarityO_eq, analyzePronounciationO_eq⟩

/-- C9: in every reachable state of the live-analysis session at most one
interval timer is active; a session start (`onstart`) can only happen in a
non-listening state, where every previously created timer has already been
cleared; and each exit path — `onend`, `onerror`, and `reset` — leaves no
active timer. -/
theorem claim_C9 (s : TimerState) (h : TimerReachable s) :
    s.activeTimers.length ≤ 1 ∧
    (s.listening = false → s.activeTimers = []) ∧
    (onEndStep s).activeTimers = [] ∧
    (onErrorStep s).activeTimers = [] ∧
    (resetStep s).activeTimers = [] := by
  have hinv := timer_reachable_inv s h
  have hexit := timer_exit_clears s hinv
  refine ⟨?_, ?_, hexit.1, hexit.2.1, hexit.2.2⟩
  · rcases hinv with h0 | ⟨i, hA, _, _⟩
    · simp [h0]
    · simp [hA]
  · intro hL
    rcases hinv with h0 | ⟨i, _, _, hL'⟩
    · exact h0
    · rw [hL'] at hL
      cases hL

/-- C9 witness: the timer properties hold at the initial component state. -/
theorem claim_C9_witness :
    initState.activeTimers.length ≤ 1 ∧
    (initState.listening = false → initState.activeTimers = []) ∧
    (onEndStep initState).activeTimers = [] ∧
    (onErrorStep initState).activeTimers = [] ∧
    (resetStep initState).activeTimers = [] :=
  claim_C9 initState TimerReachable.init

/-- C10: `similarity(a, b) = 1` exactly when `a = b`, and nevertheless the
rounded per-word score `round(similarity * 100)` can reach 100 for two distinct,
long, near-identical tokens (two 200-character strings differing in one
character). -/
theorem claim_C10 :
    (∀ a b : List Char, calculateSimilarity a b = 1 ↔ a = b) ∧
    (∃ a b : List Char, a ≠ b ∧ jsRound (calculateSimilarity a b * 100) = 100) := by
  refine ⟨calculateSimilarity_eq_one_iff, ?_⟩
  have h199 : List.replicate 200 'a' = 'a' :: List.replicate 199 'a' := by
    rw [show (200 : ℕ) = 199 + 1 from rfl, List.replicate_succ]
  have hne : List.replicate 200 'a' ≠ 'b' :: List.replicate 199 'a' := by
    rw [h199]
    intro heq
    injection heq with hab _
    exact absurd hab (by decide)
  refine ⟨List.replicate 200 'a', 'b' :: List.replicate 199 'a', hne, ?_⟩
  have hed : editDistance (List.replicate 200 'a') ('b' :: List.replicate 199 'a') = 1 := by
    have hupper :
        editDistance (List.replicate 200 'a') ('b' :: List.replicate 199 'a') ≤ 1 := by
      rw [h199, editDistance_cons_cons, editDistance_self,
        if_neg (show ¬('a' = 'b') by decide)]
      omega
    have hlower :
        editDistance (List.replicate 200 'a') ('b' :: List.replicate 199 'a') ≠ 0 := by
      rw [Ne, editDistance_eq_zero_iff]
      exact hne
    omega
  have hsim : calculateSimilarity (List.replicate 200 'a')
      ('b' :: List.replicate 199 'a') = 199 / 200 := by
    rw [calculateSimilarity_eq, hed]
    have hl1 : (List.replicate 200 'a').length = 200 := List.length_replicate 200 'a'
    have hl2 : ('b' :: List.replicate 199 'a').length = 200 := by
      rw [List.length_cons, List.length_replicate]
    rw [hl1, hl2]
    norm_num
  rw [hsim, jsRound]
  rw [show (199 / 200 * 100 + 1 / 2 : ℚ) = ((100 : ℤ) : ℚ) by norm_num]
  exact Int.floor_intCast 100


end VerbalPractice
